import Mathlib

/-!
Shallow embedding of `src/python/dynamic_single_block_amr.py`.

The script maintains a list of nested 2D grid patches (one per refinement
level) and, on each of 20 timesteps, draws a uniform random value to decide
whether to refine (append a finer patch at a random sub-position inside the
current finest patch), coarsen (drop the finest patch), or do nothing, then
writes the current hierarchy to a VTK file named after the timestep.

Python machine floats are modelled as rationals (the script only divides
1.0 by powers of two, which is exact in binary floating point), Python ints
as `Int`, and the external seeded random source as an abstract stream
`u : Nat -> Rat` of uniform draws consumed in order by a cursor.
-/

/-- Patch dimension in x, `gridPatch.nx = 16` in the source. -/
def nxC : ℕ := 16

/-- Patch dimension in y, `gridPatch.ny = 16` in the source. -/
def nyC : ℕ := 16

/-- The refinement ratio between adjacent levels, `gridPatch.refinement_ratio = 2`. -/
def refinementRatioV : ℕ := 2

/-- Base cell width in x, `dx0 = 1.0` in `main`. -/
def dx0C : ℚ := 1

/-- Base cell width in y, `dy0 = 1.0` in `main`. -/
def dy0C : ℚ := 1

/-- Number of timesteps, `ntimesteps = 20` in `main`. -/
def ntimestepsC : ℕ := 20

/-- Maximum refinement level, `max_level = 5` in `main`. -/
def maxLevelC : ℤ := 5

/-- A 2D grid patch, embedding the fields set by `gridPatch.__init__`. -/
structure GridPatch where
  id : ℤ
  level : ℤ
  dx : ℚ
  dy : ℚ
  origin : ℚ × ℚ
  data : Fin nxC → Fin nyC → ℚ

/-- Embeds `gridPatch.__init__(id, level, dx0, dy0, origin)`: the cell sizes
are the base sizes divided by `refinement_ratio ** level`, and the data block
is an `nx` by `ny` array constantly filled with the patch id. -/
def mkGridPatch (idv level : ℤ) (dx0 dy0 : ℚ) (origin : ℚ × ℚ) : GridPatch :=
  { id := idv
    level := level
    dx := dx0 / (refinementRatioV : ℚ) ^ level
    dy := dy0 / (refinementRatioV : ℚ) ^ level
    origin := origin
    data := fun _ _ => (idv : ℚ) }

/-- Modelled from the spec: the external random source's bounded-integer draw
`random.randint(0, m)` (inclusive bounds), obtained from one underlying
uniform draw `q` of the stream. Always lands in `[0, m]`. -/
def toOffset (q : ℚ) (m : ℕ) : ℕ :=
  min (Int.toNat (Int.floor (q * ((m : ℚ) + 1)))) m

/-- Embeds the `vtkUniformGrid` produced by `gridPatch.getVTKGrid`: spacing,
extent, origin and a cell-data array named `"data"`. -/
structure UniformGrid where
  spacing : ℚ × ℚ
  extent : ℕ × ℕ
  origin : ℚ × ℚ
  dataName : String
  cellData : Fin nxC → Fin nyC → ℚ

/-- Embeds `gridPatch.getVTKGrid`. -/
def getVTKGrid (p : GridPatch) : UniformGrid :=
  { spacing := (p.dx, p.dy)
    extent := (nxC, nyC)
    origin := p.origin
    dataName := "data"
    cellData := p.data }

/-- Embeds the `vtkNonOverlappingAMR` container built by `getAMRGrid`. -/
structure NonOverlappingAMR where
  numLevels : ℕ
  blocksPerLevel : List ℕ
  blocks : List (ℤ × UniformGrid)

/-- Embeds `getAMRGrid(gridPatches)`: one block per level. -/
def getAMRGrid (gridPatches : List GridPatch) : NonOverlappingAMR :=
  { numLevels := gridPatches.length
    blocksPerLevel := List.replicate gridPatches.length 1
    blocks := gridPatches.map (fun p => (p.level, getVTKGrid p)) }

/-- Mutable state of `main`'s loop: the patch list, the current refinement
level, and the cursor into the stream of random draws. -/
structure AMRState where
  patches : List GridPatch
  currentLevel : ℤ
  cursor : ℕ

/-- The patch appended in the refine branch of `main`'s loop:
`gridPatch(patches[-1].id + 1, current_level + 1, dx0, dy0, new_origin)` where
`new_origin` offsets the parent origin by `randint(0, nx/2)` parent cells in x
and `randint(0, ny/2)` parent cells in y (the draw at `cursor + 1` is for x,
the one at `cursor + 2` for y). -/
def newPatch (u : ℕ → ℚ) (s : AMRState) (parent : GridPatch) : GridPatch :=
  mkGridPatch (parent.id + 1) (s.currentLevel + 1) dx0C dy0C
    (parent.origin.1 + (toOffset (u (s.cursor + 1)) (nxC / 2) : ℚ) * parent.dx,
     parent.origin.2 + (toOffset (u (s.cursor + 2)) (nyC / 2) : ℚ) * parent.dy)

/-- Embeds one iteration of `main`'s timestep loop body (the state update part).
Draws `action = random.random()` at the cursor; if `action > 0.2` and the level
is below `max_level` it appends a finer patch at a random offset inside the
finest patch (`patches[-1]`, a crash - modelled as `none` - were the list
empty); else if `action > 0.1` and the level is positive it drops the finest
patch; otherwise it leaves the hierarchy unchanged. -/
def mainStep (u : ℕ → ℚ) (s : AMRState) : Option AMRState :=
  if 1 / 5 < u s.cursor ∧ s.currentLevel < maxLevelC then
    match s.patches.getLast? with
    | some parent =>
      some { patches := s.patches ++ [newPatch u s parent]
             currentLevel := s.currentLevel + 1
             cursor := s.cursor + 3 }
    | none => none
  else if 1 / 10 < u s.cursor ∧ 0 < s.currentLevel then
    some { patches := s.patches.dropLast
           currentLevel := s.currentLevel - 1
           cursor := s.cursor + 1 }
  else
    some { patches := s.patches
           currentLevel := s.currentLevel
           cursor := s.cursor + 1 }

/-- The output filename `"amr_%i.vtm" % k` used by `main`. -/
def amrFileName (k : ℕ) : String := "amr_" ++ Nat.repr k ++ ".vtm"

/-- One call of `writeAMRGrid(filename, grid)`: the filename and the AMR grid
handed to the external XML writer. -/
structure WriteEvent where
  filename : String
  grid : NonOverlappingAMR

/-- The initial state of `main`: a single base patch
`gridPatch(0, 0, dx0, dy0, [0, 0])` at level 0, cursor at the stream start. -/
def initState : AMRState :=
  { patches := [mkGridPatch 0 0 dx0C dy0C (0, 0)]
    currentLevel := 0
    cursor := 0 }

/-- The write issued by `main` before the loop: `writeAMRGrid("amr_0.vtm", ...)`. -/
def initEvents : List WriteEvent :=
  [{ filename := amrFileName 0, grid := getAMRGrid initState.patches }]

/-- Embeds `main` up to and including timestep `n - 1` (so `n` loop iterations):
the state after `n` steps together with the ordered list of file writes so far.
The write of timestep `t` uses filename `"amr_%i.vtm" % (t + 1)`. -/
def mainRun (u : ℕ → ℚ) : ℕ → Option (AMRState × List WriteEvent)
  | 0 => some (initState, initEvents)
  | n + 1 =>
    (mainRun u n).bind fun se =>
      (mainStep u se.1).map fun s' =>
        (s', se.2 ++ [{ filename := amrFileName (n + 1), grid := getAMRGrid s'.patches }])

/-- A draw stream that always returns 1/2: every step refines until `max_level`
is reached, then alternates remove and add. Used for concrete witnesses. -/
def uHalf : ℕ → ℚ := fun _ => 1 / 2

/-- A draw stream whose step draws are add (1/2), remove (3/20), add (1/2):
used to exhibit reuse of patch ids. -/
def uC : ℕ → ℚ := fun i => if i = 3 then 3 / 20 else 1 / 2

/-- State and write trace after one timestep of the all-halves stream. -/
def wSE1 : AMRState × List WriteEvent := (mainRun uHalf 1).getD (initState, initEvents)

/-- State and write trace after the full 20-timestep run of the all-halves
stream. -/
def wSE20 : AMRState × List WriteEvent := (mainRun uHalf ntimestepsC).getD (initState, initEvents)

/-- The state after one refine step from the initial state. -/
def wS1 : AMRState := (mainStep uHalf initState).getD initState

/-- A stream that matches `uHalf` on the first three draws only. -/
def vW : ℕ → ℚ := fun i => if i < 3 then 1 / 2 else 0

section RatComput

attribute [local semireducible] Rat.mul Rat.add Rat.inv Rat.sub

example : (mainRun uHalf 1).map (fun se => se.1.patches.length) = some 2 := by decide

example : (mainRun uHalf 1).map (fun se => se.1.cursor) = some 3 := by decide

example : (mainRun uC 3).map (fun se => (se.1.patches.length, se.1.patches.getLast?.map GridPatch.id)) = some (2, some 1) := by decide

example : (mainRun uHalf 20).map (fun se => (se.1.patches.length, se.1.cursor, se.2.length)) = some (5, 44, 21) := by decide

end RatComput

/-- The state invariant maintained by the driver loop: the level stays in
`[0, max_level]`, there are exactly `currentLevel + 1` patches, and the patch
at list position `i` was built by `gridPatch(i, i, dx0, dy0, o)` for some
origin `o`, with the base patch sitting at the world origin. -/
def InvAMR (s : AMRState) : Prop :=
  0 ≤ s.currentLevel ∧ s.currentLevel ≤ maxLevelC ∧
  (s.patches.length : ℤ) = s.currentLevel + 1 ∧
  ∀ i : ℕ, ∀ hi : i < s.patches.length,
    ∃ o, s.patches[i] = mkGridPatch (i : ℤ) (i : ℤ) dx0C dy0C o ∧ (i = 0 → o = (0, 0))

theorem mainStep_eq_add (u : ℕ → ℚ) (s : AMRState) (parent : GridPatch)
    (h1 : 1 / 5 < u s.cursor) (h2 : s.currentLevel < maxLevelC)
    (hlast : s.patches.getLast? = some parent) :
    mainStep u s = some { patches := s.patches ++ [newPatch u s parent]
                          currentLevel := s.currentLevel + 1
                          cursor := s.cursor + 3 } := by
  unfold mainStep
  rw [if_pos ⟨h1, h2⟩, hlast]

theorem mainStep_eq_remove (u : ℕ → ℚ) (s : AMRState)
    (hn1 : ¬(1 / 5 < u s.cursor ∧ s.currentLevel < maxLevelC))
    (h1 : 1 / 10 < u s.cursor) (h2 : 0 < s.currentLevel) :
    mainStep u s = some { patches := s.patches.dropLast
                          currentLevel := s.currentLevel - 1
                          cursor := s.cursor + 1 } := by
  unfold mainStep
  rw [if_neg hn1, if_pos ⟨h1, h2⟩]

theorem mainStep_eq_skip (u : ℕ → ℚ) (s : AMRState)
    (hn1 : ¬(1 / 5 < u s.cursor ∧ s.currentLevel < maxLevelC))
    (hn2 : ¬(1 / 10 < u s.cursor ∧ 0 < s.currentLevel)) :
    mainStep u s = some { patches := s.patches
                          currentLevel := s.currentLevel
                          cursor := s.cursor + 1 } := by
  unfold mainStep
  rw [if_neg hn1, if_neg hn2]

theorem invAMR_initState : InvAMR initState := by
  refine ⟨le_refl 0, by decide, by simp [initState], ?_⟩
  intro i hi
  simp only [initState, List.length_singleton] at hi
  interval_cases i
  exact ⟨(0, 0), rfl, fun _ => rfl⟩

theorem invAMR_patches_pos (s : AMRState) (h : InvAMR s) : 0 < s.patches.length := by
  obtain ⟨h0, -, hlen, -⟩ := h
  omega

theorem invAMR_getLast? (s : AMRState) (h : InvAMR s) :
    ∃ hl : s.patches.length - 1 < s.patches.length,
      s.patches.getLast? = some s.patches[s.patches.length - 1] := by
  have hpos := invAMR_patches_pos s h
  refine ⟨by omega, ?_⟩
  rw [List.getLast?_eq_getElem?, List.getElem?_eq_getElem (by omega)]

/-- One driver step from any state satisfying the invariant succeeds (the
`patches[-1]` access cannot fail) and preserves the invariant. -/
theorem mainStep_inv (u : ℕ → ℚ) (s : AMRState) (h : InvAMR s) :
    ∃ s', mainStep u s = some s' ∧ InvAMR s' := by
  obtain ⟨h0, hm, hlen, hpat⟩ := h
  have hpos : 0 < s.patches.length := by omega
  have hl1 : s.patches.length - 1 < s.patches.length := by omega
  have hlast : s.patches.getLast? = some s.patches[s.patches.length - 1] :=
    (invAMR_getLast? s ⟨h0, hm, hlen, hpat⟩).2
  by_cases hc1 : 1 / 5 < u s.cursor ∧ s.currentLevel < maxLevelC
  · obtain ⟨op, hop, -⟩ := hpat (s.patches.length - 1) hl1
    refine ⟨_, mainStep_eq_add u s _ hc1.1 hc1.2 hlast, ?_, ?_, ?_, ?_⟩
    · show (0 : ℤ) ≤ s.currentLevel + 1
      omega
    · show s.currentLevel + 1 ≤ maxLevelC
      have := hc1.2
      omega
    · show (((s.patches ++ [newPatch u s _]).length : ℕ) : ℤ) = s.currentLevel + 1 + 1
      simp only [List.length_append, List.length_singleton]
      push_cast
      omega
    · intro i hi
      simp only [List.length_append, List.length_singleton] at hi
      rcases Nat.lt_or_ge i s.patches.length with hilt | hige
      · obtain ⟨o, ho, hbase⟩ := hpat i hilt
        exact ⟨o, by rw [List.getElem_append_left hilt]; exact ho, hbase⟩
      · have hieq : i = s.patches.length := by omega
        have hni : i ≠ 0 := by omega
        refine ⟨(newPatch u s s.patches[s.patches.length - 1]).origin, ?_,
          fun hi0 => absurd hi0 hni⟩
        rw [List.getElem_concat_length _ _ _ hieq]
        show newPatch u s _ = _
        unfold newPatch
        have hid : s.patches[s.patches.length - 1].id + 1 = (i : ℤ) := by
          rw [hop]
          show ((s.patches.length - 1 : ℕ) : ℤ) + 1 = (i : ℤ)
          omega
        have hlv : s.currentLevel + 1 = (i : ℤ) := by omega
        rw [hid, hlv]
        rfl
  · by_cases hc2 : 1 / 10 < u s.cursor ∧ 0 < s.currentLevel
    · refine ⟨_, mainStep_eq_remove u s hc1 hc2.1 hc2.2, ?_, ?_, ?_, ?_⟩
      · show (0 : ℤ) ≤ s.currentLevel - 1
        have := hc2.2
        omega
      · show s.currentLevel - 1 ≤ maxLevelC
        omega
      · show ((s.patches.dropLast.length : ℕ) : ℤ) = s.currentLevel - 1 + 1
        simp only [List.length_dropLast]
        omega
      · intro i hi
        simp only [List.length_dropLast] at hi
        obtain ⟨o, ho, hbase⟩ := hpat i (by omega)
        exact ⟨o, by rw [List.getElem_dropLast]; exact ho, hbase⟩
    · exact ⟨_, mainStep_eq_skip u s hc1 hc2, h0, hm, hlen, hpat⟩

/-- Every run of the driver loop succeeds and reaches a state satisfying the
invariant. -/
theorem mainRun_some_inv (u : ℕ → ℚ) :
    ∀ n, ∃ s evs, mainRun u n = some (s, evs) ∧ InvAMR s := by
  intro n
  induction n with
  | zero => exact ⟨initState, initEvents, rfl, invAMR_initState⟩
  | succ n ih =>
    obtain ⟨s, evs, hrun, hinv⟩ := ih
    obtain ⟨s', hstep, hinv'⟩ := mainStep_inv u s hinv
    refine ⟨s', evs ++ [{ filename := amrFileName (n + 1), grid := getAMRGrid s'.patches }], ?_, hinv'⟩
    simp [mainRun, hrun, hstep]

/-- Any state actually reached by the run satisfies the invariant. -/
theorem mainRun_inv (u : ℕ → ℚ) (n : ℕ) (s : AMRState) (evs : List WriteEvent)
    (h : mainRun u n = some (s, evs)) : InvAMR s := by
  obtain ⟨s', evs', hrun, hinv⟩ := mainRun_some_inv u n
  rw [h] at hrun
  obtain ⟨rfl, rfl⟩ := Prod.mk.injEq .. ▸ Option.some.inj hrun
  exact hinv

/-- A successful step advances the draw cursor by 3 in the refine branch (one
decision draw plus two offset draws) and by 1 otherwise (just the decision
draw). -/
theorem mainStep_cursor_eq (u : ℕ → ℚ) (s s' : AMRState) (h : mainStep u s = some s') :
    s'.cursor = s.cursor +
      (if 1 / 5 < u s.cursor ∧ s.currentLevel < maxLevelC then 3 else 1) := by
  unfold mainStep at h
  by_cases hc1 : 1 / 5 < u s.cursor ∧ s.currentLevel < maxLevelC
  · rw [if_pos hc1] at h
    rw [if_pos hc1]
    cases hlast : s.patches.getLast? with
    | none =>
      rw [hlast] at h
      exact absurd h (by simp)
    | some parent =>
      rw [hlast] at h
      cases h
      rfl
  · rw [if_neg hc1] at h
    rw [if_neg hc1]
    by_cases hc2 : 1 / 10 < u s.cursor ∧ 0 < s.currentLevel
    · rw [if_pos hc2] at h
      cases h
      rfl
    · rw [if_neg hc2] at h
      cases h
      rfl

theorem mainStep_cursor_lt (u : ℕ → ℚ) (s s' : AMRState) (h : mainStep u s = some s') :
    s.cursor < s'.cursor := by
  have := mainStep_cursor_eq u s s' h
  split at this <;> omega

/-- A step only reads the draw stream between the old and the new cursor, so
two streams agreeing there take the same step. -/
theorem mainStep_congr (u v : ℕ → ℚ) (s s' : AMRState) (h : mainStep u s = some s')
    (hag : ∀ i, s.cursor ≤ i → i < s'.cursor → u i = v i) :
    mainStep v s = some s' := by
  have hlt : s.cursor < s'.cursor := mainStep_cursor_lt u s s' h
  have hcur := mainStep_cursor_eq u s s' h
  have h0 : u s.cursor = v s.cursor := hag s.cursor le_rfl hlt
  by_cases hc1 : 1 / 5 < u s.cursor ∧ s.currentLevel < maxLevelC
  · rw [if_pos hc1] at hcur
    have h1 : u (s.cursor + 1) = v (s.cursor + 1) := hag _ (by omega) (by omega)
    have h2 : u (s.cursor + 2) = v (s.cursor + 2) := hag _ (by omega) (by omega)
    have hc1v : 1 / 5 < v s.cursor ∧ s.currentLevel < maxLevelC := by
      rw [← h0]
      exact hc1
    unfold mainStep at h ⊢
    rw [if_pos hc1] at h
    rw [if_pos hc1v]
    cases hlast : s.patches.getLast? with
    | none =>
      rw [hlast] at h
      exact absurd h (by simp)
    | some parent =>
      rw [hlast] at h
      rw [← h]
      unfold newPatch
      rw [h1, h2]
  · have hc1v : ¬(1 / 5 < v s.cursor ∧ s.currentLevel < maxLevelC) := by
      rw [← h0]
      exact hc1
    unfold mainStep at h ⊢
    rw [if_neg hc1] at h
    rw [if_neg hc1v]
    by_cases hc2 : 1 / 10 < u s.cursor ∧ 0 < s.currentLevel
    · have hc2v : 1 / 10 < v s.cursor ∧ 0 < s.currentLevel := by
        rw [← h0]
        exact hc2
      rw [if_pos hc2] at h
      rw [if_pos hc2v]
      exact h
    · have hc2v : ¬(1 / 10 < v s.cursor ∧ 0 < s.currentLevel) := by
        rw [← h0]
        exact hc2
      rw [if_neg hc2] at h
      rw [if_neg hc2v]
      exact h

/-- The whole run only reads the draw stream below the final cursor: two
streams agreeing there produce identical runs. -/
theorem mainRun_congr (u v : ℕ → ℚ) :
    ∀ n s evs, mainRun u n = some (s, evs) → (∀ i, i < s.cursor → u i = v i) →
      mainRun v n = some (s, evs) := by
  intro n
  induction n with
  | zero =>
    intro s evs h hag
    exact h
  | succ n ih =>
    intro s evs h hag
    rw [mainRun] at h
    cases hr : mainRun u n with
    | none =>
      rw [hr] at h
      exact absurd h (by simp)
    | some se =>
      rw [hr] at h
      rw [Option.some_bind] at h
      cases hs : mainStep u se.1 with
      | none =>
        rw [hs] at h
        exact absurd h (by simp)
      | some s1 =>
        rw [hs] at h
        rw [Option.map_some'] at h
        cases h
        have hlt : se.1.cursor < s.cursor := mainStep_cursor_lt u se.1 s hs
        have ihv : mainRun v n = some (se.1, se.2) :=
          ih se.1 se.2 hr (fun i hi => hag i (lt_trans hi hlt))
        have hsv : mainStep v se.1 = some s :=
          mainStep_congr u v se.1 s hs (fun i h1 h2 => hag i h2)
        rw [mainRun, ihv, Option.some_bind, hsv, Option.map_some']

/-- The write trace of a run: one write per loop entry plus the initial one,
the `k`-th write having filename `amr_k.vtm` and containing exactly the
hierarchy present after step `k`. -/
theorem mainRun_events_aux (u : ℕ → ℚ) :
    ∀ n s evs, mainRun u n = some (s, evs) →
      evs.length = n + 1 ∧
      (∀ k, ∀ hk : k < evs.length, (evs[k]).filename = amrFileName k) ∧
      (∀ k, ∀ hk : k < evs.length, ∀ sk evsk, mainRun u k = some (sk, evsk) →
        (evs[k]).grid = getAMRGrid sk.patches) := by
  intro n
  induction n with
  | zero =>
    intro s evs h
    cases h
    refine ⟨rfl, ?_, ?_⟩
    · intro k hk
      simp only [initEvents, List.length_singleton] at hk
      interval_cases k
      rfl
    · intro k hk sk evsk hrk
      simp only [initEvents, List.length_singleton] at hk
      interval_cases k
      cases hrk
      rfl
  | succ n ih =>
    intro s evs h
    have horig := h
    rw [mainRun] at h
    cases hr : mainRun u n with
    | none =>
      rw [hr] at h
      exact absurd h (by simp)
    | some se =>
      rw [hr] at h
      rw [Option.some_bind] at h
      cases hs : mainStep u se.1 with
      | none =>
        rw [hs] at h
        exact absurd h (by simp)
      | some s1 =>
        rw [hs] at h
        rw [Option.map_some'] at h
        cases h
        obtain ⟨ihlen, ihname, ihgrid⟩ := ih se.1 se.2 hr
        refine ⟨?_, ?_, ?_⟩
        · simp only [List.length_append, List.length_singleton]
          omega
        · intro k hk
          simp only [List.length_append, List.length_singleton] at hk
          rcases Nat.lt_or_ge k se.2.length with hklt | hkge
          · rw [List.getElem_append_left hklt]
            exact ihname k hklt
          · have hkeq : k = se.2.length := by omega
            rw [List.getElem_concat_length _ _ _ hkeq]
            rw [hkeq, ihlen]
        · intro k hk sk evsk hrk
          simp only [List.length_append, List.length_singleton] at hk
          rcases Nat.lt_or_ge k se.2.length with hklt | hkge
          · rw [List.getElem_append_left hklt]
            exact ihgrid k hklt sk evsk hrk
          · have hkeq : k = se.2.length := by omega
            have hkn : k = n + 1 := by omega
            rw [hkn] at hrk
            rw [horig] at hrk
            obtain ⟨rfl, rfl⟩ := Prod.mk.injEq .. ▸ Option.some.inj hrk
            rw [List.getElem_concat_length _ _ _ hkeq]

/-- The base patch `gridPatch(0, 0, dx0, dy0, [0, 0])` created before the loop. -/
def basePatch : GridPatch := mkGridPatch 0 0 dx0C dy0C (0, 0)

/-- C1: each timestep draws one uniform value `r` (at the cursor) and applies
exactly this policy: if `r > 0.2` and the depth is below `max_level`, the depth
increases by 1 and one new finest patch is appended; otherwise if `r > 0.1`
and the depth is positive, the depth decreases by 1 and the finest patch is
removed; otherwise patches and depth are unchanged. In particular a draw in
`(0.1, 0.2]` at depth 0 is a silent no-op. -/
theorem mainStep_policy (u : ℕ → ℚ) (n : ℕ) (s : AMRState) (evs : List WriteEvent)
    (h : mainRun u n = some (s, evs)) :
    (1 / 5 < u s.cursor ∧ s.currentLevel < maxLevelC →
      ∃ p, mainStep u s = some { patches := s.patches ++ [p]
                                 currentLevel := s.currentLevel + 1
                                 cursor := s.cursor + 3 }) ∧
    (¬(1 / 5 < u s.cursor ∧ s.currentLevel < maxLevelC) →
      1 / 10 < u s.cursor → 0 < s.currentLevel →
      mainStep u s = some { patches := s.patches.dropLast
                            currentLevel := s.currentLevel - 1
                            cursor := s.cursor + 1 }) ∧
    (¬(1 / 5 < u s.cursor ∧ s.currentLevel < maxLevelC) →
      ¬(1 / 10 < u s.cursor ∧ 0 < s.currentLevel) →
      mainStep u s = some { patches := s.patches
                            currentLevel := s.currentLevel
                            cursor := s.cursor + 1 }) ∧
    (1 / 10 < u s.cursor → u s.cursor ≤ 1 / 5 → s.currentLevel = 0 →
      mainStep u s = some { patches := s.patches
                            currentLevel := s.currentLevel
                            cursor := s.cursor + 1 }) := by
  have hinv := mainRun_inv u n s evs h
  obtain ⟨hl, hlast⟩ := invAMR_getLast? s hinv
  refine ⟨?_, ?_, ?_, ?_⟩
  · intro hc1
    exact ⟨_, mainStep_eq_add u s _ hc1.1 hc1.2 hlast⟩
  · intro hn1 h1 h2
    exact mainStep_eq_remove u s hn1 h1 h2
  · intro hn1 hn2
    exact mainStep_eq_skip u s hn1 hn2
  · intro h1 h2 h0
    refine mainStep_eq_skip u s ?_ ?_
    · rintro ⟨ha, -⟩
      exact absurd ha (not_lt.mpr h2)
    · rintro ⟨-, hb⟩
      omega

/-- C2: at every reachable point of the run the patch list has exactly
`depth + 1` entries, the patch at position `i` has refinement level `i`, the
list is never empty, and the head is still the original level-0 base patch. -/
theorem mainRun_hierarchy (u : ℕ → ℚ) (n : ℕ) (s : AMRState) (evs : List WriteEvent)
    (h : mainRun u n = some (s, evs)) :
    (s.patches.length : ℤ) = s.currentLevel + 1 ∧
    (∀ i, ∀ hi : i < s.patches.length, (s.patches.get ⟨i, hi⟩).level = (i : ℤ)) ∧
    s.patches ≠ [] ∧
    s.patches.head? = some basePatch := by
  obtain ⟨h0, hm, hlen, hpat⟩ := mainRun_inv u n s evs h
  have hpos : 0 < s.patches.length := by omega
  refine ⟨hlen, ?_, List.ne_nil_of_length_pos hpos, ?_⟩
  · intro i hi
    obtain ⟨o, ho, -⟩ := hpat i hi
    rw [List.get_eq_getElem, ho]
    rfl
  · obtain ⟨o, ho, hb⟩ := hpat 0 hpos
    rw [List.head?_eq_getElem?, List.getElem?_eq_getElem hpos, ho, hb rfl]
    rfl

/-- C3: the hierarchy depth stays within `[0, max_level]` after any sequence
of draws. -/
theorem mainRun_depth_bounds (u : ℕ → ℚ) (n : ℕ) (s : AMRState) (evs : List WriteEvent)
    (h : mainRun u n = some (s, evs)) :
    0 ≤ s.currentLevel ∧ s.currentLevel ≤ maxLevelC := by
  obtain ⟨h0, hm, -, -⟩ := mainRun_inv u n s evs h
  exact ⟨h0, hm⟩

/-- C4: a patch constructed at level `L` has cell spacing equal to the base
spacing divided by `refinement_ratio ^ L` with ratio 2, in both dimensions. -/
theorem mkGridPatch_spacing (idv : ℤ) (L : ℕ) (dx0 dy0 : ℚ) (o : ℚ × ℚ) :
    (mkGridPatch idv (L : ℤ) dx0 dy0 o).dx = dx0 / 2 ^ L ∧
    (mkGridPatch idv (L : ℤ) dx0 dy0 o).dy = dy0 / 2 ^ L := by
  unfold mkGridPatch refinementRatioV
  constructor <;> · show _ / _ ^ ((L : ℕ) : ℤ) = _ / _ ^ L
                    rw [zpow_natCast]
                    norm_num

/-- C8: the patch factory fills a fixed-size `nx` by `ny` (16 by 16) array in
which every entry equals the patch's identifier; in the embedding it is a pure
function of its arguments, so it is deterministic and has no effect beyond the
returned patch value. -/
theorem mkGridPatch_data (idv level : ℤ) (dx0 dy0 : ℚ) (o : ℚ × ℚ) :
    nxC = 16 ∧ nyC = 16 ∧
    ∀ (i : Fin nxC) (j : Fin nyC),
      (mkGridPatch idv level dx0 dy0 o).data i j = (idv : ℚ) :=
  ⟨rfl, rfl, fun _ _ => rfl⟩

/-- C5 (amended): within the hierarchy at any reachable point, patch ids are
exactly the list positions, hence strictly increasing along the list; a new
patch's id is one more than the finest patch's id, but ids are reused across
the run after removals (see the counterexample). -/
theorem mainRun_ids (u : ℕ → ℚ) (n : ℕ) (s : AMRState) (evs : List WriteEvent)
    (h : mainRun u n = some (s, evs)) :
    (∀ i, ∀ hi : i < s.patches.length, (s.patches.get ⟨i, hi⟩).id = (i : ℤ)) ∧
    (∀ i j, ∀ hi : i < s.patches.length, ∀ hj : j < s.patches.length, i < j →
      (s.patches.get ⟨i, hi⟩).id < (s.patches.get ⟨j, hj⟩).id) := by
  obtain ⟨-, -, -, hpat⟩ := mainRun_inv u n s evs h
  have hid : ∀ i, ∀ hi : i < s.patches.length, (s.patches.get ⟨i, hi⟩).id = (i : ℤ) := by
    intro i hi
    obtain ⟨o, ho, -⟩ := hpat i hi
    rw [List.get_eq_getElem, ho]
    rfl
  refine ⟨hid, ?_⟩
  intro i j hi hj hij
  rw [hid i hi, hid j hj]
  exact_mod_cast hij

theorem toOffset_le (q : ℚ) (m : ℕ) : toOffset q m ≤ m :=
  min_le_right _ _

/-- Extracting the step taken between two consecutive successful run states. -/
theorem mainRun_succ_step (u : ℕ → ℚ) (k : ℕ) (sk : AMRState) (evsk : List WriteEvent)
    (sk1 : AMRState) (evsk1 : List WriteEvent)
    (hk : mainRun u k = some (sk, evsk)) (hk1 : mainRun u (k + 1) = some (sk1, evsk1)) :
    mainStep u sk = some sk1 := by
  rw [mainRun, hk, Option.some_bind] at hk1
  cases hs : mainStep u sk with
  | none =>
    have hs' : mainStep u (sk, evsk).1 = none := hs
    rw [hs'] at hk1
    exact absurd hk1 (by simp)
  | some s2 =>
    have hs' : mainStep u (sk, evsk).1 = some s2 := hs
    rw [hs', Option.map_some'] at hk1
    cases hk1
    rfl

/-- In the refine branch of a reachable state, the finest patch (the parent)
has spacing `dx0 / 2 ^ level`, and the appended child is `newPatch` with half
the parent's spacing. -/
theorem mainStep_add_last (u : ℕ → ℚ) (n : ℕ) (s : AMRState) (evs : List WriteEvent)
    (s' : AMRState) (h : mainRun u n = some (s, evs))
    (hc1 : 1 / 5 < u s.cursor) (hc2 : s.currentLevel < maxLevelC)
    (hstep : mainStep u s = some s') :
    ∃ parent, s.patches.getLast? = some parent ∧
      s'.patches.getLast? = some (newPatch u s parent) ∧
      0 < parent.dx ∧ 0 < parent.dy ∧
      (newPatch u s parent).dx = parent.dx / 2 ∧
      (newPatch u s parent).dy = parent.dy / 2 := by
  have hinv := mainRun_inv u n s evs h
  obtain ⟨hl, hlast⟩ := invAMR_getLast? s hinv
  obtain ⟨h0, hm, hlen, hpat⟩ := hinv
  obtain ⟨o, ho, -⟩ := hpat (s.patches.length - 1) hl
  have hrr : ((refinementRatioV : ℕ) : ℚ) = 2 := by norm_num [refinementRatioV]
  have hcast : ((s.patches.length - 1 : ℕ) : ℤ) = s.currentLevel := by omega
  have hpdx : s.patches[s.patches.length - 1].dx = dx0C / (2 : ℚ) ^ s.currentLevel := by
    rw [ho]
    show dx0C / (refinementRatioV : ℚ) ^ ((s.patches.length - 1 : ℕ) : ℤ) = _
    rw [hrr, hcast]
  have hpdy : s.patches[s.patches.length - 1].dy = dy0C / (2 : ℚ) ^ s.currentLevel := by
    rw [ho]
    show dy0C / (refinementRatioV : ℚ) ^ ((s.patches.length - 1 : ℕ) : ℤ) = _
    rw [hrr, hcast]
  have hpow : (0 : ℚ) < (2 : ℚ) ^ s.currentLevel := zpow_pos (by norm_num) _
  refine ⟨s.patches[s.patches.length - 1], hlast, ?_, ?_, ?_, ?_, ?_⟩
  · have hadd := mainStep_eq_add u s _ hc1 hc2 hlast
    rw [hadd] at hstep
    cases hstep
    exact List.getLast?_concat _
  · rw [hpdx]
    norm_num [dx0C]
    positivity
  · rw [hpdy]
    norm_num [dy0C]
    positivity
  · show dx0C / (refinementRatioV : ℚ) ^ (s.currentLevel + 1) = _
    rw [hrr, hpdx, zpow_add_one₀ (by norm_num : (2:ℚ) ≠ 0), div_div]
  · show dy0C / (refinementRatioV : ℚ) ^ (s.currentLevel + 1) = _
    rw [hrr, hpdy, zpow_add_one₀ (by norm_num : (2:ℚ) ≠ 0), div_div]

/-- C6: a patch added in the refine branch has origin equal to the parent's
origin plus a random integer in `[0, nx/2]` (resp. `[0, ny/2]`) times the
parent's cell spacing, which places it inside the half-open box
`[parent.origin, parent.origin + (nx dx, ny dy))`. -/
theorem mainStep_child_origin (u : ℕ → ℚ) (n : ℕ) (s : AMRState) (evs : List WriteEvent)
    (s' : AMRState) (h : mainRun u n = some (s, evs))
    (hc1 : 1 / 5 < u s.cursor) (hc2 : s.currentLevel < maxLevelC)
    (hstep : mainStep u s = some s') :
    ∃ parent child, s.patches.getLast? = some parent ∧ s'.patches.getLast? = some child ∧
      ∃ kx ky : ℕ, kx ≤ nxC / 2 ∧ ky ≤ nyC / 2 ∧
        child.origin.1 = parent.origin.1 + (kx : ℚ) * parent.dx ∧
        child.origin.2 = parent.origin.2 + (ky : ℚ) * parent.dy ∧
        parent.origin.1 ≤ child.origin.1 ∧
        child.origin.1 < parent.origin.1 + (nxC : ℚ) * parent.dx ∧
        parent.origin.2 ≤ child.origin.2 ∧
        child.origin.2 < parent.origin.2 + (nyC : ℚ) * parent.dy := by
  obtain ⟨parent, hlast, hchild, hdx, hdy, -, -⟩ :=
    mainStep_add_last u n s evs s' h hc1 hc2 hstep
  refine ⟨parent, newPatch u s parent, hlast, hchild,
    toOffset (u (s.cursor + 1)) (nxC / 2), toOffset (u (s.cursor + 2)) (nyC / 2),
    toOffset_le _ _, toOffset_le _ _, rfl, rfl, ?_, ?_, ?_, ?_⟩
  · show parent.origin.1 ≤ parent.origin.1 + _ * parent.dx
    have : (0 : ℚ) ≤ (toOffset (u (s.cursor + 1)) (nxC / 2) : ℚ) * parent.dx :=
      mul_nonneg (by positivity) (le_of_lt hdx)
    linarith
  · show parent.origin.1 + _ * parent.dx < parent.origin.1 + (nxC : ℚ) * parent.dx
    have hkb : (toOffset (u (s.cursor + 1)) (nxC / 2) : ℚ) ≤ ((nxC / 2 : ℕ) : ℚ) := by
      exact_mod_cast toOffset_le (u (s.cursor + 1)) (nxC / 2)
    have hhalf : ((nxC / 2 : ℕ) : ℚ) < (nxC : ℚ) := by norm_num [nxC]
    have := mul_lt_mul_of_pos_right (lt_of_le_of_lt hkb hhalf) hdx
    linarith
  · show parent.origin.2 ≤ parent.origin.2 + _ * parent.dy
    have : (0 : ℚ) ≤ (toOffset (u (s.cursor + 2)) (nyC / 2) : ℚ) * parent.dy :=
      mul_nonneg (by positivity) (le_of_lt hdy)
    linarith
  · show parent.origin.2 + _ * parent.dy < parent.origin.2 + (nyC : ℚ) * parent.dy
    have hkb : (toOffset (u (s.cursor + 2)) (nyC / 2) : ℚ) ≤ ((nyC / 2 : ℕ) : ℚ) := by
      exact_mod_cast toOffset_le (u (s.cursor + 2)) (nyC / 2)
    have hhalf : ((nyC / 2 : ℕ) : ℚ) < (nyC : ℚ) := by norm_num [nyC]
    have := mul_lt_mul_of_pos_right (lt_of_le_of_lt hkb hhalf) hdy
    linarith

/-- C10: the whole extent of an added child patch lies within its parent's
extent: the child's 16 cells at half the parent's spacing span 8 parent cells
and the offset is at most 8 parent cells, so the far edges never overshoot;
the far edges coincide exactly when the maximal offset `nx/2` is drawn. -/
theorem mainStep_child_contained (u : ℕ → ℚ) (n : ℕ) (s : AMRState) (evs : List WriteEvent)
    (s' : AMRState) (h : mainRun u n = some (s, evs))
    (hc1 : 1 / 5 < u s.cursor) (hc2 : s.currentLevel < maxLevelC)
    (hstep : mainStep u s = some s') :
    ∃ parent child, s.patches.getLast? = some parent ∧ s'.patches.getLast? = some child ∧
      child.dx = parent.dx / 2 ∧ child.dy = parent.dy / 2 ∧
      parent.origin.1 ≤ child.origin.1 ∧ parent.origin.2 ≤ child.origin.2 ∧
      child.origin.1 + (nxC : ℚ) * child.dx ≤ parent.origin.1 + (nxC : ℚ) * parent.dx ∧
      child.origin.2 + (nyC : ℚ) * child.dy ≤ parent.origin.2 + (nyC : ℚ) * parent.dy ∧
      (child.origin.1 = parent.origin.1 + ((nxC / 2 : ℕ) : ℚ) * parent.dx →
        child.origin.1 + (nxC : ℚ) * child.dx = parent.origin.1 + (nxC : ℚ) * parent.dx) := by
  obtain ⟨parent, hlast, hchild, hdx, hdy, hcdx, hcdy⟩ :=
    mainStep_add_last u n s evs s' h hc1 hc2 hstep
  have hox : (newPatch u s parent).origin.1 =
      parent.origin.1 + (toOffset (u (s.cursor + 1)) (nxC / 2) : ℚ) * parent.dx := rfl
  have hoy : (newPatch u s parent).origin.2 =
      parent.origin.2 + (toOffset (u (s.cursor + 2)) (nyC / 2) : ℚ) * parent.dy := rfl
  have hkxb : (toOffset (u (s.cursor + 1)) (nxC / 2) : ℚ) ≤ ((nxC / 2 : ℕ) : ℚ) := by
    exact_mod_cast toOffset_le (u (s.cursor + 1)) (nxC / 2)
  have hkyb : (toOffset (u (s.cursor + 2)) (nyC / 2) : ℚ) ≤ ((nyC / 2 : ℕ) : ℚ) := by
    exact_mod_cast toOffset_le (u (s.cursor + 2)) (nyC / 2)
  have hnx : ((nxC : ℕ) : ℚ) = 16 := by norm_num [nxC]
  have hny : ((nyC : ℕ) : ℚ) = 16 := by norm_num [nyC]
  have hnx2 : ((nxC / 2 : ℕ) : ℚ) = 8 := by norm_num [nxC]
  have hny2 : ((nyC / 2 : ℕ) : ℚ) = 8 := by norm_num [nyC]
  refine ⟨parent, newPatch u s parent, hlast, hchild, hcdx, hcdy, ?_, ?_, ?_, ?_, ?_⟩
  · rw [hox]
    have : (0 : ℚ) ≤ (toOffset (u (s.cursor + 1)) (nxC / 2) : ℚ) * parent.dx :=
      mul_nonneg (by positivity) (le_of_lt hdx)
    linarith
  · rw [hoy]
    have : (0 : ℚ) ≤ (toOffset (u (s.cursor + 2)) (nyC / 2) : ℚ) * parent.dy :=
      mul_nonneg (by positivity) (le_of_lt hdy)
    linarith
  · rw [hox, hcdx, hnx]
    rw [hnx2] at hkxb
    have := mul_le_mul_of_nonneg_right hkxb (le_of_lt hdx)
    linarith
  · rw [hoy, hcdy, hny]
    rw [hny2] at hkyb
    have := mul_le_mul_of_nonneg_right hkyb (le_of_lt hdy)
    linarith
  · intro htouch
    rw [htouch, hcdx, hnx, hnx2]
    ring

/-- C7: with the random source fixed, the run is deterministic: any stream
agreeing with `u` on the draws actually consumed (those below the final
cursor) yields the identical run (same states, hence same depth trajectory
and patch counts, and same write trace); and each timestep consumes exactly
one decision draw, plus two offset draws exactly when the refine branch is
taken. -/
theorem mainRun_deterministic (u v : ℕ → ℚ) (n : ℕ) (s : AMRState)
    (evs : List WriteEvent) (h : mainRun u n = some (s, evs))
    (hagree : ∀ i, i < s.cursor → u i = v i) :
    mainRun v n = some (s, evs) ∧
    (∀ k sk evsk sk1 evsk1, mainRun u k = some (sk, evsk) →
      mainRun u (k + 1) = some (sk1, evsk1) →
      sk1.cursor = sk.cursor +
        (if 1 / 5 < u sk.cursor ∧ sk.currentLevel < maxLevelC then 3 else 1)) := by
  refine ⟨mainRun_congr u v n s evs h hagree, ?_⟩
  intro k sk evsk sk1 evsk1 hk hk1
  exact mainStep_cursor_eq u sk sk1 (mainRun_succ_step u k sk evsk sk1 evsk1 hk hk1)

theorem getAMRGrid_dataName (ps : List GridPatch) (b : ℤ × UniformGrid)
    (hb : b ∈ (getAMRGrid ps).blocks) : b.2.dataName = "data" := by
  simp only [getAMRGrid, List.mem_map] at hb
  obtain ⟨p, -, rfl⟩ := hb
  rfl

theorem amrFileName_inj21 :
    ∀ i, i < 21 → ∀ j, j < 21 → i < j → amrFileName i ≠ amrFileName j := by decide

/-- C9 (amended): over the 20-timestep run, one file is written per loop
iteration (plus the pre-loop one): 21 writes in total, the `k`-th named
`amr_k.vtm` (so timestep `t` writes `amr_(t+1).vtm`), all filenames pairwise
distinct, each write containing the hierarchy present after that step, with
every block's cell-data array named `"data"`. -/
theorem mainRun_writes (u : ℕ → ℚ) (s : AMRState) (evs : List WriteEvent)
    (h : mainRun u ntimestepsC = some (s, evs)) :
    evs.length = ntimestepsC + 1 ∧
    (∀ k, ∀ hk : k < evs.length, (evs.get ⟨k, hk⟩).filename = amrFileName k) ∧
    List.Pairwise (fun a b => a.filename ≠ b.filename) evs ∧
    (∀ k, ∀ hk : k < evs.length, ∀ sk evsk, mainRun u k = some (sk, evsk) →
      (evs.get ⟨k, hk⟩).grid = getAMRGrid sk.patches ∧
      ∀ b, b ∈ (evs.get ⟨k, hk⟩).grid.blocks → b.2.dataName = "data") := by
  obtain ⟨hlen, hname, hgrid⟩ := mainRun_events_aux u ntimestepsC s evs h
  have hlen21 : evs.length = 21 := hlen
  refine ⟨hlen, ?_, ?_, ?_⟩
  · intro k hk
    rw [List.get_eq_getElem]
    exact hname k hk
  · rw [List.pairwise_iff_getElem]
    intro i j hi hj hij
    rw [hname i hi, hname j hj]
    exact amrFileName_inj21 i (by omega) j (by omega) hij
  · intro k hk sk evsk hrk
    have hg := hgrid k hk sk evsk hrk
    rw [List.get_eq_getElem]
    refine ⟨hg, ?_⟩
    intro b hb
    rw [hg] at hb
    exact getAMRGrid_dataName sk.patches b hb

section ConcreteWitnesses

attribute [local semireducible] Rat.mul Rat.add Rat.inv Rat.sub

/-- Witness for C1 at the initial state of the all-halves stream. -/
theorem mainStep_policy_witness :
    (1 / 5 < uHalf initState.cursor ∧ initState.currentLevel < maxLevelC →
      ∃ p, mainStep uHalf initState = some { patches := initState.patches ++ [p]
                                             currentLevel := initState.currentLevel + 1
                                             cursor := initState.cursor + 3 }) ∧
    (¬(1 / 5 < uHalf initState.cursor ∧ initState.currentLevel < maxLevelC) →
      1 / 10 < uHalf initState.cursor → 0 < initState.currentLevel →
      mainStep uHalf initState = some { patches := initState.patches.dropLast
                                        currentLevel := initState.currentLevel - 1
                                        cursor := initState.cursor + 1 }) ∧
    (¬(1 / 5 < uHalf initState.cursor ∧ initState.currentLevel < maxLevelC) →
      ¬(1 / 10 < uHalf initState.cursor ∧ 0 < initState.currentLevel) →
      mainStep uHalf initState = some { patches := initState.patches
                                        currentLevel := initState.currentLevel
                                        cursor := initState.cursor + 1 }) ∧
    (1 / 10 < uHalf initState.cursor → uHalf initState.cursor ≤ 1 / 5 →
      initState.currentLevel = 0 →
      mainStep uHalf initState = some { patches := initState.patches
                                        currentLevel := initState.currentLevel
                                        cursor := initState.cursor + 1 }) :=
  mainStep_policy uHalf 0 initState initEvents rfl

/-- Witness for C2 after one concrete timestep. -/
theorem mainRun_hierarchy_witness :
    (wSE1.1.patches.length : ℤ) = wSE1.1.currentLevel + 1 ∧
    (∀ i, ∀ hi : i < wSE1.1.patches.length, (wSE1.1.patches.get ⟨i, hi⟩).level = (i : ℤ)) ∧
    wSE1.1.patches ≠ [] ∧
    wSE1.1.patches.head? = some basePatch :=
  mainRun_hierarchy uHalf 1 wSE1.1 wSE1.2 rfl

/-- Witness for C3 after one concrete timestep. -/
theorem mainRun_depth_bounds_witness :
    0 ≤ wSE1.1.currentLevel ∧ wSE1.1.currentLevel ≤ maxLevelC :=
  mainRun_depth_bounds uHalf 1 wSE1.1 wSE1.2 rfl

/-- Witness for C5's amended statement after one concrete timestep. -/
theorem mainRun_ids_witness :
    (∀ i, ∀ hi : i < wSE1.1.patches.length, (wSE1.1.patches.get ⟨i, hi⟩).id = (i : ℤ)) ∧
    (∀ i j, ∀ hi : i < wSE1.1.patches.length, ∀ hj : j < wSE1.1.patches.length, i < j →
      (wSE1.1.patches.get ⟨i, hi⟩).id < (wSE1.1.patches.get ⟨j, hj⟩).id) :=
  mainRun_ids uHalf 1 wSE1.1 wSE1.2 rfl

/-- Witness for C6 at the first concrete refine step. -/
theorem mainStep_child_origin_witness :
    ∃ parent child, initState.patches.getLast? = some parent ∧
      wS1.patches.getLast? = some child ∧
      ∃ kx ky : ℕ, kx ≤ nxC / 2 ∧ ky ≤ nyC / 2 ∧
        child.origin.1 = parent.origin.1 + (kx : ℚ) * parent.dx ∧
        child.origin.2 = parent.origin.2 + (ky : ℚ) * parent.dy ∧
        parent.origin.1 ≤ child.origin.1 ∧
        child.origin.1 < parent.origin.1 + (nxC : ℚ) * parent.dx ∧
        parent.origin.2 ≤ child.origin.2 ∧
        child.origin.2 < parent.origin.2 + (nyC : ℚ) * parent.dy :=
  mainStep_child_origin uHalf 0 initState initEvents wS1 rfl (by decide) (by decide) rfl

/-- Witness for C10 at the first concrete refine step. -/
theorem mainStep_child_contained_witness :
    ∃ parent child, initState.patches.getLast? = some parent ∧
      wS1.patches.getLast? = some child ∧
      child.dx = parent.dx / 2 ∧ child.dy = parent.dy / 2 ∧
      parent.origin.1 ≤ child.origin.1 ∧ parent.origin.2 ≤ child.origin.2 ∧
      child.origin.1 + (nxC : ℚ) * child.dx ≤ parent.origin.1 + (nxC : ℚ) * parent.dx ∧
      child.origin.2 + (nyC : ℚ) * child.dy ≤ parent.origin.2 + (nyC : ℚ) * parent.dy ∧
      (child.origin.1 = parent.origin.1 + ((nxC / 2 : ℕ) : ℚ) * parent.dx →
        child.origin.1 + (nxC : ℚ) * child.dx = parent.origin.1 + (nxC : ℚ) * parent.dx) :=
  mainStep_child_contained uHalf 0 initState initEvents wS1 rfl (by decide) (by decide) rfl

/-- Witness for C7: a stream agreeing with `uHalf` only on the consumed draws
reproduces the run. -/
theorem mainRun_deterministic_witness :
    mainRun vW 1 = some (wSE1.1, wSE1.2) ∧
    (∀ k sk evsk sk1 evsk1, mainRun uHalf k = some (sk, evsk) →
      mainRun uHalf (k + 1) = some (sk1, evsk1) →
      sk1.cursor = sk.cursor +
        (if 1 / 5 < uHalf sk.cursor ∧ sk.currentLevel < maxLevelC then 3 else 1)) :=
  mainRun_deterministic uHalf vW 1 wSE1.1 wSE1.2 rfl (by decide)

/-- Witness for C9's amended statement on the concrete 20-timestep run. -/
theorem mainRun_writes_witness :
    wSE20.2.length = ntimestepsC + 1 ∧
    (∀ k, ∀ hk : k < wSE20.2.length, (wSE20.2.get ⟨k, hk⟩).filename = amrFileName k) ∧
    List.Pairwise (fun a b => a.filename ≠ b.filename) wSE20.2 ∧
    (∀ k, ∀ hk : k < wSE20.2.length, ∀ sk evsk, mainRun uHalf k = some (sk, evsk) →
      (wSE20.2.get ⟨k, hk⟩).grid = getAMRGrid sk.patches ∧
      ∀ b, b ∈ (wSE20.2.get ⟨k, hk⟩).grid.blocks → b.2.dataName = "data") :=
  mainRun_writes uHalf wSE20.1 wSE20.2 rfl

/-- C5 counterexample: patch ids are not strictly increasing over all patches
created during the run. With stream `uC` the step draws are add, remove, add:
the patch created at timestep 0 gets id 1, is removed at timestep 1, and the
patch created at timestep 2 gets id 1 again - not strictly greater than the
id of a patch created before it. -/
theorem mainRun_id_reuse :
    (mainRun uC 1).map (fun se => (se.1.patches.length, se.1.patches.getLast?.map GridPatch.id))
      = some (2, some 1) ∧
    (mainRun uC 2).map (fun se => (se.1.patches.length, se.1.patches.getLast?.map GridPatch.id))
      = some (1, some 0) ∧
    (mainRun uC 3).map (fun se => (se.1.patches.length, se.1.patches.getLast?.map GridPatch.id))
      = some (2, some 1) :=
  ⟨by decide, by decide, by decide⟩

/-- C9 counterexample: the file written during timestep 0 is `amr_1.vtm`
(the second write of the run, after the pre-loop `amr_0.vtm`), not a file
named by the timestep index 0. -/
theorem mainRun_filename_shift :
    (mainRun uHalf 1).map (fun se => se.2.map WriteEvent.filename) =
      some ["amr_0.vtm", "amr_1.vtm"] ∧
    "amr_1.vtm" ≠ "amr_0.vtm" :=
  ⟨by decide, by decide⟩

end ConcreteWitnesses
